import Mathlib

/-!
Verification development for the bb-deployments test harness.

The repository has two core subsystems: a coordination socket server
(lib/socket_server.py) with message-aggregation helpers
(lib/message_coordination.py), and a process supervisor
(lib/service_manager.py).  We embed each operation the claims mention as an
executable Lean function over explicit state, with real time modelled as an
integer clock and external effects (process spawning, signal response)
modelled as an environment of functions.
-/

namespace BB

/-! ## Socket server model (lib/socket_server.py)

A `Message` pairs the received content with the identity of the connection
that produced it (the Python code stores the socket object; we use a numeric
connection id).  The server state carries the current clock value, the queue
of already-received messages (`self._messages`, oldest first), and the
schedule of frames that will arrive in the future, each tagged with its
arrival time, oldest first.
-/

structure Message where
  content : String
  conn : Nat
deriving DecidableEq, Repr

structure ServerState where
  now : Int
  queue : List Message
  arrivals : List (Int × Message)
deriving DecidableEq, Repr

/-- The full delivery stream of a server state: messages already queued,
followed by the contents of the arrival schedule in order. -/
def streamOf (st : ServerState) : List Message :=
  st.queue ++ st.arrivals.map (fun a => a.2)

/-- The body of `SocketServer.wait_for_message_with_conn`: loop while the
queue is empty; if the deadline has passed return `None`, else block on the
condition variable for the remaining time.  A wait either wakes when the
next scheduled frame arrives (the reader thread appends it and notifies) or
times out at the deadline; after waking, the queue-emptiness check runs
again before the deadline check.  Popping returns the front of the queue. -/
def waitLoop (deadline : Int) :
    Int → List Message → List (Int × Message) → Option Message × ServerState
  | now, m :: rest, arr => (some m, ⟨now, rest, arr⟩)
  | now, [], [] =>
    if deadline ≤ now then (none, ⟨now, [], []⟩) else (none, ⟨deadline, [], []⟩)
  | now, [], (t, m) :: later =>
    if deadline ≤ now then (none, ⟨now, [], (t, m) :: later⟩)
    else if t ≤ deadline then waitLoop deadline (max now t) [m] later
    else (none, ⟨deadline, [], (t, m) :: later⟩)

/-- `SocketServer.wait_for_message_with_conn(timeout)`: computes
`deadline = time.time() + timeout` and runs the wait loop. -/
def wait_for_message_with_conn (timeout : Int) (st : ServerState) :
    Option Message × ServerState :=
  waitLoop (st.now + timeout) st.now st.queue st.arrivals

/-- `SocketServer.wait_for_message(timeout)`: delegates and projects the
content (`msg.content if msg else None`). -/
def wait_for_message (timeout : Int) (st : ServerState) :
    Option String × ServerState :=
  let r := wait_for_message_with_conn timeout st
  (r.1.map Message.content, r.2)

/-! ## Connection handler model (SocketServer._handle_connection)

The reader thread keeps a per-connection byte buffer.  Each received chunk
is appended to the buffer, then every complete newline-terminated line is
split off the front, decoded, stripped of surrounding whitespace, and
enqueued when non-empty.  We model the byte stream at character level
(splitting happens on the newline byte, which never occurs inside a
multi-byte UTF-8 sequence, so chunk boundaries cannot corrupt decoding). -/

/-- Decompose a buffer into its complete lines and the tail after the last
newline.  This computes exactly what the handler loop
`while b"\n" in buffer: line, buffer = buffer.split(b"\n", 1)` produces:
the segments before each newline, in order, and the remaining partial
frame. -/
def splitLines : List Char → List (List Char) × List Char
  | [] => ([], [])
  | c :: rest =>
    if c = '\n' then
      ([] :: (splitLines rest).1, (splitLines rest).2)
    else
      match splitLines rest with
      | ([], rem) => ([], c :: rem)
      | (l :: ls, rem) => ((c :: l) :: ls, rem)

/-- The whitespace predicate of Python `str.strip()` (ASCII portion). -/
def pyWhitespace (c : Char) : Bool :=
  c = ' ' || c = '\t' || c = '\n' || c = '\r' || c = '\x0b' || c = '\x0c'

/-- Python `line.strip()`: drop whitespace from both ends. -/
def pyStrip (s : List Char) : List Char :=
  ((s.dropWhile pyWhitespace).reverse.dropWhile pyWhitespace).reverse

/-- Per-connection handler state: the partial-frame buffer and the
sequence of message contents appended to the server queue so far. -/
structure ConnState where
  buffer : List Char
  emitted : List (List Char)
deriving DecidableEq, Repr

/-- One iteration of the `_handle_connection` receive loop on a chunk
returned by `recv`: append to the buffer, split off every complete line,
strip each, and enqueue the non-empty ones in order. -/
def handleChunk (st : ConnState) (data : List Char) : ConnState :=
  ⟨(splitLines (st.buffer ++ data)).2,
    st.emitted ++
      ((splitLines (st.buffer ++ data)).1.map pyStrip).filter
        (fun l => !l.isEmpty)⟩

/-- The whole receive loop over a sequence of chunks. -/
def handleStream (st : ConnState) (chunks : List (List Char)) : ConnState :=
  chunks.foldl handleChunk st

/-! ## Message aggregation model (lib/message_coordination.py) -/

/-- `CollectedMessages`: messages gathered by an aggregation call together
with the correlation ids parsed from them, index-aligned. -/
structure CollectedMessages where
  messages : List Message
  test_ids : List String
deriving DecidableEq, Repr

/-- Everything after the first colon: `content.split(":", 1)[1]`.  The
callers only reach this after checking that a colon-bearing tag starts the
content, so a colon is always present. -/
def afterFirstColon : List Char → List Char
  | [] => []
  | c :: rest => if c = ':' then rest else afterFirstColon rest

def splitId (s : String) : String :=
  ⟨afterFirstColon s.data⟩

/-- Python `content.startswith(tag)`, character by character. -/
def strStartsWith (s tag : String) : Bool :=
  tag.data.isPrefixOf s.data

/-- The loop of `wait_for_started_messages(server, count, timeout, pfx)`,
parameterised by the number of messages still needed
(`count - len(collected)`).  Each iteration recomputes the remaining
budget `timeout - (time.time() - start_time)`, fails with `None` when it
is exhausted or the inner wait times out, accepts a frame equal to the
expected tag (empty id) or starting with the tag and a colon (id is the
text after the first colon), and fails with `None` on any other frame. -/
def collectSteps (pfx : String) (startTime timeout : Int) :
    Nat → CollectedMessages → ServerState → Option CollectedMessages × ServerState
  | 0, acc, st => (some acc, st)
  | Nat.succ need, acc, st =>
    if timeout - (st.now - startTime) ≤ 0 then (none, st)
    else
      match wait_for_message_with_conn (timeout - (st.now - startTime)) st with
      | (none, st1) => (none, st1)
      | (some msg, st1) =>
        if msg.content = pfx then
          collectSteps pfx startTime timeout need
            ⟨acc.messages ++ [msg], acc.test_ids ++ [""]⟩ st1
        else if strStartsWith msg.content (pfx ++ ":") then
          collectSteps pfx startTime timeout need
            ⟨acc.messages ++ [msg], acc.test_ids ++ [splitId msg.content]⟩ st1
        else (none, st1)

/-- `wait_for_started_messages`: start with an empty collection and a
start time read from the clock, and loop until `count` frames are held. -/
def wait_for_started_messages (pfx : String) (count : Nat) (timeout : Int)
    (st : ServerState) : Option CollectedMessages × ServerState :=
  collectSteps pfx st.now timeout count ⟨[], []⟩ st

/-- The loop of `wait_for_test_group(server, test_id, count, timeout)`:
identical budget handling, but the match is against `"STARTED:<test_id>"`;
a frame tagged `STARTED:` with a different id is still collected, with the
id it actually carried, and any frame not starting with `"STARTED:"`
fails the call with `None`. -/
def groupSteps (test_id : String) (startTime timeout : Int) :
    Nat → CollectedMessages → ServerState → Option CollectedMessages × ServerState
  | 0, acc, st => (some acc, st)
  | Nat.succ need, acc, st =>
    if timeout - (st.now - startTime) ≤ 0 then (none, st)
    else
      match wait_for_message_with_conn (timeout - (st.now - startTime)) st with
      | (none, st1) => (none, st1)
      | (some msg, st1) =>
        if msg.content = "STARTED:" ++ test_id then
          groupSteps test_id startTime timeout need
            ⟨acc.messages ++ [msg], acc.test_ids ++ [test_id]⟩ st1
        else if strStartsWith msg.content "STARTED:" then
          groupSteps test_id startTime timeout need
            ⟨acc.messages ++ [msg], acc.test_ids ++ [splitId msg.content]⟩ st1
        else (none, st1)

/-- `wait_for_test_group`. -/
def wait_for_test_group (test_id : String) (count : Nat) (timeout : Int)
    (st : ServerState) : Option CollectedMessages × ServerState :=
  groupSteps test_id st.now timeout count ⟨[], []⟩ st

/-! ## Process supervisor model (lib/service_manager.py)

External effects are captured by an `Env` of functions: runfiles path
resolution, process spawning (returning a pid on success), and each
process response to SIGTERM within the grace period (an exit code, or
`none` when the process ignores the signal and must be killed).  A
`ProcHandle` models a `subprocess.Popen`: `status` is what `poll()`
reports, `some code` once the process has exited.  Every externally
visible action of the supervisor is recorded as an event so that ordering
claims can be stated on the trace. -/

structure ServiceConfig where
  name : String
  config : String
  binary : String
deriving DecidableEq, Repr

structure ProcHandle where
  pid : Nat
  status : Option Int
deriving DecidableEq, Repr

structure ManagerState where
  processes : List (ServiceConfig × ProcHandle)
deriving DecidableEq, Repr

structure Env where
  resolve : String → Option String
  spawn : String → String → Option Nat
  onTerm : Nat → Option Int

inductive Ev where
  | mkdirs
  | spawned (name : String) (pid : Nat)
  | sigterm (pid : Nat)
  | graceWait
  | kill (pid : Nat)
  | reap (pid : Nat) (code : Int)
  | warmup
deriving DecidableEq, Repr

/-- The phase in which `stop()` emits each event kind: signals first, then
the bounded grace-period wait, then the forced-kill sweep, then reaping. -/
def evPhase : Ev → Nat
  | .mkdirs => 0
  | .spawned _ _ => 1
  | .sigterm _ => 2
  | .graceWait => 3
  | .kill _ => 4
  | .reap _ _ => 5
  | .warmup => 6

/-- SIGKILL termination is reported by `Popen.returncode` as -9. -/
def killCode : Int := -9

/-- The status of a process after the grace-period wait: unchanged if it
had already exited, otherwise whatever its response to SIGTERM is. -/
def afterGraceStatus (env : Env) (p : ProcHandle) : Option Int :=
  match p.status with
  | some c => some c
  | none => env.onTerm p.pid

/-- The exit code finally reaped for a process: its post-grace status, or
`killCode` when the kill sweep had to terminate it. -/
def reapedCode (env : Env) (p : ProcHandle) : Int :=
  match afterGraceStatus env p with
  | some c => c
  | none => killCode

/-- `ServiceManager.stop()`: early return when nothing is managed;
otherwise send SIGTERM to every process whose poll shows it still running,
wait up to the grace period for all to exit, kill those still running,
wait on (reap) every process recording its exit code, and clear the
managed set. -/
def stopModel (env : Env) (ps : List (ServiceConfig × ProcHandle)) :
    List Ev × ManagerState :=
  match ps with
  | [] => ([], ⟨[]⟩)
  | _ :: _ =>
    ((ps.filter (fun p => p.2.status.isNone)).map (fun p => Ev.sigterm p.2.pid)
      ++ Ev.graceWait
      :: (ps.filter (fun p => (afterGraceStatus env p.2).isNone)).map
          (fun p => Ev.kill p.2.pid)
      ++ ps.map (fun p => Ev.reap p.2.pid (reapedCode env p.2)),
     ⟨[]⟩)

/-- `ServiceManager._start_service(service)`: resolve the binary path,
resolve the config path, and spawn; `None` on the first failure.  A fresh
process polls as still running. -/
def startService (env : Env) (s : ServiceConfig) : Option ProcHandle :=
  match env.resolve s.binary with
  | none => none
  | some bpath =>
    match env.resolve s.config with
    | none => none
    | some cpath =>
      match env.spawn bpath cpath with
      | none => none
      | some pid => some ⟨pid, none⟩

/-- The service loop shared by `start()` and `restart()`: start each
service in list order, appending to the managed set; on the first failure
call `stop()` (tearing down everything managed so far) and report failure;
after all succeed, sleep the warm-up interval and report success. -/
def startLoop (env : Env) :
    List ServiceConfig → List (ServiceConfig × ProcHandle) →
      List Ev × Bool × ManagerState
  | [], acc => ([Ev.warmup], true, ⟨acc⟩)
  | s :: rest, acc =>
    match startService env s with
    | none =>
      match stopModel env acc with
      | (tr, st) => (tr, false, st)
    | some h =>
      match startLoop env rest (acc ++ [(s, h)]) with
      | (tr, b, st) => (Ev.spawned s.name h.pid :: tr, b, st)

/-- `ServiceManager.start()`: create the required directories, then run
the service loop over the descriptor list on top of the current managed
set. -/
def startModel (env : Env) (services : List ServiceConfig)
    (st : ManagerState) : List Ev × Bool × ManagerState :=
  (Ev.mkdirs :: (startLoop env services st.processes).1,
    (startLoop env services st.processes).2)

/-- `ServiceManager.restart()`: `stop()`, then the same service loop over
the now-cleared managed set — without the directory-creation step, so
on-disk state is preserved. -/
def restartModel (env : Env) (services : List ServiceConfig)
    (st : ManagerState) : List Ev × Bool × ManagerState :=
  ((stopModel env st.processes).1 ++
      (startLoop env services (stopModel env st.processes).2.processes).1,
    (startLoop env services (stopModel env st.processes).2.processes).2)

/-- `ServiceManager.is_running()`: every managed process still polls as
running. -/
def is_running (st : ManagerState) : Bool :=
  st.processes.all (fun p => p.2.status.isNone)

theorem waitLoop_stream (deadline : Int) :
    ∀ (arr : List (Int × Message)) (now : Int) (queue : List Message)
      (m : Message) (st2 : ServerState),
      waitLoop deadline now queue arr = (some m, st2) →
      queue ++ arr.map (fun a => a.2) = m :: streamOf st2 := by
  intro arr
  induction arr with
  | nil =>
    intro now queue m st2 h
    match queue with
    | q :: rest =>
      simp only [waitLoop] at h
      obtain ⟨hm, hst⟩ := Prod.mk.injEq .. ▸ h
      cases hm
      cases hst
      simp [streamOf]
    | [] =>
      simp only [waitLoop] at h
      split at h <;> simp_all
  | cons a later ih =>
    intro now queue m st2 h
    match queue with
    | q :: rest =>
      simp only [waitLoop] at h
      obtain ⟨hm, hst⟩ := Prod.mk.injEq .. ▸ h
      cases hm
      cases hst
      simp [streamOf]
    | [] =>
      obtain ⟨t, msg⟩ := a
      simp only [waitLoop] at h
      split at h
      · simp_all
      · split at h
        · obtain ⟨hm, hst⟩ := Prod.mk.injEq .. ▸ h
          cases Option.some.injEq .. ▸ hm
          cases hst
          simp [streamOf]
        · simp_all

/-- C1: for every timeout, the wait returns `none` when no frame is
available within the budget (empty queue and every scheduled arrival
strictly after the deadline); when the queue is non-empty it removes and
returns the front (oldest) message; every successful dequeue removes
exactly the head of the global delivery stream, so a message handed to one
caller is gone from the state seen by later callers; and
`wait_for_message` is the content projection of
`wait_for_message_with_conn`. -/
theorem wait_for_message_fifo :
    (∀ (t : Int) (st : ServerState), st.queue = [] →
        (∀ a ∈ st.arrivals, st.now + t < a.1) →
        (wait_for_message_with_conn t st).1 = none) ∧
    (∀ (t : Int) (st : ServerState) (m : Message) (rest : List Message),
        st.queue = m :: rest →
        wait_for_message_with_conn t st = (some m, ⟨st.now, rest, st.arrivals⟩)) ∧
    (∀ (t : Int) (st st2 : ServerState) (m : Message),
        wait_for_message_with_conn t st = (some m, st2) →
        streamOf st = m :: streamOf st2) ∧
    (∀ (t : Int) (st : ServerState),
        wait_for_message t st =
          ((wait_for_message_with_conn t st).1.map Message.content,
            (wait_for_message_with_conn t st).2)) := by
  refine ⟨?_, ?_, ?_, ?_⟩
  · intro t st hq harr
    obtain ⟨now, queue, arr⟩ := st
    cases hq
    match arr with
    | [] =>
      simp only [wait_for_message_with_conn, waitLoop]
      split <;> simp
    | (t1, m1) :: later =>
      have h1 : now + t < t1 := harr (t1, m1) (by simp)
      simp only [wait_for_message_with_conn, waitLoop]
      split
      · simp
      · rw [if_neg (by omega)]
  · intro t st m rest hq
    obtain ⟨now, queue, arr⟩ := st
    cases hq
    simp [wait_for_message_with_conn, waitLoop]
  · intro t st st2 m h
    have := waitLoop_stream (st.now + t) st.arrivals st.now st.queue m st2 h
    simpa [streamOf] using this
  · intro t st
    rfl

/-- Witness for C1 at concrete inputs. -/
theorem wait_for_message_fifo_witness :
    (wait_for_message_with_conn 5 ⟨0, [], [(10, ⟨"A", 0⟩)]⟩).1 = none ∧
    wait_for_message_with_conn 5 ⟨0, [⟨"A", 0⟩, ⟨"B", 1⟩], []⟩ =
      (some ⟨"A", 0⟩, ⟨0, [⟨"B", 1⟩], []⟩) ∧
    streamOf ⟨0, [⟨"A", 0⟩, ⟨"B", 1⟩], []⟩ =
      ⟨"A", 0⟩ :: streamOf ⟨0, [⟨"B", 1⟩], []⟩ :=
  ⟨wait_for_message_fifo.1 5 ⟨0, [], [(10, ⟨"A", 0⟩)]⟩ rfl (by decide),
   wait_for_message_fifo.2.1 5 ⟨0, [⟨"A", 0⟩, ⟨"B", 1⟩], []⟩ ⟨"A", 0⟩ [⟨"B", 1⟩] rfl,
   wait_for_message_fifo.2.2.1 5 ⟨0, [⟨"A", 0⟩, ⟨"B", 1⟩], []⟩ ⟨0, [⟨"B", 1⟩], []⟩
     ⟨"A", 0⟩ (by decide)⟩

/-- C9: the emptiness check runs before the deadline check, so with a
non-empty queue the call returns the front message for every timeout,
zero and negative included; with an empty queue a non-positive timeout
returns `none` immediately with the state unchanged (a non-blocking poll),
never an unconditional failure when data is present. -/
theorem wait_nonpositive_timeout_polls :
    (∀ (t : Int) (st : ServerState) (m : Message) (rest : List Message),
        st.queue = m :: rest →
        (wait_for_message_with_conn t st).1 = some m) ∧
    (∀ (t : Int) (st : ServerState), t ≤ 0 → st.queue = [] →
        wait_for_message_with_conn t st = (none, st)) := by
  constructor
  · intro t st m rest hq
    obtain ⟨now, queue, arr⟩ := st
    cases hq
    simp [wait_for_message_with_conn, waitLoop]
  · intro t st ht hq
    obtain ⟨now, queue, arr⟩ := st
    cases hq
    match arr with
    | [] =>
      simp only [wait_for_message_with_conn, waitLoop]
      rw [if_pos (by omega)]
    | (t1, m1) :: later =>
      simp only [wait_for_message_with_conn, waitLoop]
      rw [if_pos (by omega)]

/-- Witness for C9: a negative timeout still pops the queued message. -/
theorem wait_nonpositive_timeout_polls_witness :
    (wait_for_message_with_conn (-3) ⟨7, [⟨"M", 2⟩], [(9, ⟨"N", 3⟩)]⟩).1 =
      some ⟨"M", 2⟩ ∧
    wait_for_message_with_conn 0 ⟨7, [], [(9, ⟨"N", 3⟩)]⟩ =
      (none, ⟨7, [], [(9, ⟨"N", 3⟩)]⟩) :=
  ⟨wait_nonpositive_timeout_polls.1 (-3) ⟨7, [⟨"M", 2⟩], [(9, ⟨"N", 3⟩)]⟩
     ⟨"M", 2⟩ [] rfl,
   wait_nonpositive_timeout_polls.2 0 ⟨7, [], [(9, ⟨"N", 3⟩)]⟩ (by decide) rfl⟩

theorem splitLines_append (x y : List Char) :
    splitLines (x ++ y) =
      ((splitLines x).1 ++ (splitLines ((splitLines x).2 ++ y)).1,
        (splitLines ((splitLines x).2 ++ y)).2) := by
  induction x with
  | nil => simp [splitLines]
  | cons c x ih =>
    by_cases hc : c = '\n'
    · subst hc
      simp [splitLines, ih]
    · rcases h1 : splitLines x with ⟨l1, r1⟩
      rcases l1 with _ | ⟨m, ms⟩
      · rcases h2 : splitLines (r1 ++ y) with ⟨l2, r2⟩
        rcases l2 with _ | ⟨n, ns⟩ <;>
          simp [splitLines, hc, ih, h1, h2]
      · simp [splitLines, hc, ih, h1]

theorem handleChunk_append (st : ConnState) (a b : List Char) :
    handleChunk (handleChunk st a) b = handleChunk st (a ++ b) := by
  rcases st with ⟨buf, em⟩
  have h := splitLines_append (buf ++ a) b
  simp only [handleChunk, List.append_assoc] at h ⊢
  rw [h]
  simp

theorem splitLines_chars (s : List Char) :
    (splitLines s).1.foldr (fun l acc => l ++ '\n' :: acc) (splitLines s).2 = s ∧
    (∀ l ∈ (splitLines s).1, '\n' ∉ l) ∧ '\n' ∉ (splitLines s).2 := by
  induction s with
  | nil => simp [splitLines]
  | cons c s ih =>
    obtain ⟨ihj, ihl, ihr⟩ := ih
    by_cases hc : c = '\n'
    · subst hc
      have hsplit : splitLines ('\n' :: s) =
          ([] :: (splitLines s).1, (splitLines s).2) := by
        simp [splitLines]
      rw [hsplit]
      refine ⟨by simpa using ihj, ?_, ihr⟩
      intro l hl
      rw [List.mem_cons] at hl
      rcases hl with hl | hl
      · subst hl
        simp
      · exact ihl l hl
    · rcases h1 : splitLines s with ⟨l1, r1⟩
      rw [h1] at ihj ihl ihr
      simp only at ihj ihl ihr
      rcases l1 with _ | ⟨m, ms⟩
      · simp only [List.foldr] at ihj
        subst ihj
        refine ⟨by simp [splitLines, hc, h1], by simp [splitLines, hc, h1], ?_⟩
        simp only [splitLines, if_neg hc, h1]
        intro hmem
        rcases List.mem_cons.mp hmem with hmem | hmem
        · exact hc hmem.symm
        · exact ihr hmem
      · refine ⟨?_, ?_, ?_⟩
        · simp only [splitLines, if_neg hc, h1, List.foldr]
          simp only [List.foldr] at ihj
          simpa using ihj
        · intro l hl
          simp only [splitLines, if_neg hc, h1, List.mem_cons] at hl
          rcases hl with hl | hl
          · subst hl
            intro hmem
            rcases List.mem_cons.mp hmem with hmem | hmem
            · exact hc hmem.symm
            · exact ihl m (by simp) hmem
          · exact ihl l (by simp [hl])
        · simp only [splitLines, if_neg hc, h1]
          exact ihr

theorem splitLines_no_newline (s : List Char) (h : '\n' ∉ s) :
    splitLines s = ([], s) := by
  induction s with
  | nil => simp [splitLines]
  | cons c s ih =>
    have hc : ¬c = '\n' := fun hcc => h (hcc ▸ List.mem_cons_self c s)
    have hs : '\n' ∉ s := fun hmem => h (List.mem_cons_of_mem c hmem)
    simp [splitLines, hc, ih hs]

/-- C7: the connection handler is invariant under re-chunking of the byte
stream: feeding any sequence of chunks produces the same state as feeding
their concatenation at once; the lines split off a buffer are exactly its
newline-delimited segments (re-joining them with newlines restores the
buffer, and neither the lines nor the leftover tail contain a newline);
and a single-shot run emits exactly the stripped non-empty lines, keeping
the bytes after the last newline buffered with no message emitted for
them. -/
theorem handler_chunking_invariant :
    (∀ (st : ConnState) (chunks : List (List Char)), '\n' ∉ st.buffer →
        handleStream st chunks = handleChunk st chunks.flatten) ∧
    (∀ s : List Char,
        (splitLines s).1.foldr (fun l acc => l ++ '\n' :: acc) (splitLines s).2
            = s ∧
          (∀ l ∈ (splitLines s).1, '\n' ∉ l) ∧ '\n' ∉ (splitLines s).2) ∧
    (∀ s : List Char,
        handleStream ⟨[], []⟩ [s] =
          ⟨(splitLines s).2,
            ((splitLines s).1.map pyStrip).filter (fun l => !l.isEmpty)⟩) := by
  have hstream : ∀ (chunks : List (List Char)) (st : ConnState), '\n' ∉ st.buffer →
      handleStream st chunks = handleChunk st chunks.flatten := by
    intro chunks
    induction chunks with
    | nil =>
      intro st hbuf
      rcases st with ⟨buf, em⟩
      simp only [handleStream, List.foldl_nil, List.flatten_nil, handleChunk,
        List.append_nil]
      rw [splitLines_no_newline buf hbuf]
      simp
    | cons a rest ih =>
      intro st hbuf
      have h1 : handleStream st (a :: rest) = handleStream (handleChunk st a) rest := by
        simp [handleStream]
      have hbuf2 : '\n' ∉ (handleChunk st a).buffer :=
        (splitLines_chars (st.buffer ++ a)).2.2
      rw [h1, ih (handleChunk st a) hbuf2, handleChunk_append]
      simp
  refine ⟨fun st chunks h => hstream chunks st h, splitLines_chars, ?_⟩
  intro s
  simp [handleStream, handleChunk]

/-- Witness for C7: the frame STARTED:7 split across three reads, with a
partial frame left over. -/
theorem handler_chunking_invariant_witness :
    handleStream ⟨[], []⟩
        [['S', 'T', 'A'], ['R', 'T', 'E', 'D', ':', '7', '\n', ' '], ['\n', 'D', 'O']] =
      handleChunk ⟨[], []⟩
        (List.flatten
          [['S', 'T', 'A'], ['R', 'T', 'E', 'D', ':', '7', '\n', ' '], ['\n', 'D', 'O']]) ∧
    '\n' ∉ (splitLines ['S', 'T', '\n', 'D', 'O']).2 :=
  ⟨handler_chunking_invariant.1 ⟨[], []⟩
      [['S', 'T', 'A'], ['R', 'T', 'E', 'D', ':', '7', '\n', ' '], ['\n', 'D', 'O']]
      (by decide),
   (handler_chunking_invariant.2.1 ['S', 'T', '\n', 'D', 'O']).2.2⟩

theorem waitLoop_now_le (deadline : Int) :
    ∀ (arr : List (Int × Message)) (now : Int) (queue : List Message),
      (waitLoop deadline now queue arr).2.now ≤ max now deadline := by
  intro arr
  induction arr with
  | nil =>
    intro now queue
    match queue with
    | q :: rest => simp [waitLoop]
    | [] =>
      simp only [waitLoop]
      split <;> simp
  | cons a later ih =>
    intro now queue
    match queue with
    | q :: rest => simp [waitLoop]
    | [] =>
      obtain ⟨t, m⟩ := a
      simp only [waitLoop]
      split
      · simp
      · split
        · rename_i hd ht
          simp only [max_le_iff, le_max_iff]
          omega
        · simp

theorem collectSteps_now_le (pfx : String) (startT timeout : Int) :
    ∀ (need : Nat) (acc : CollectedMessages) (st : ServerState),
      (collectSteps pfx startT timeout need acc st).2.now ≤
        max st.now (startT + timeout) := by
  intro need
  induction need with
  | zero =>
    intro acc st
    simp [collectSteps]
  | succ n ih =>
    intro acc st
    rw [collectSteps]
    split
    · simp
    · rcases hw : wait_for_message_with_conn (timeout - (st.now - startT)) st
        with ⟨r, st1⟩
      have hb : st1.now ≤ max st.now (startT + timeout) := by
        have h3 := waitLoop_now_le (st.now + (timeout - (st.now - startT)))
          st.arrivals st.now st.queue
        have hw2 : waitLoop (st.now + (timeout - (st.now - startT)))
            st.now st.queue st.arrivals = (r, st1) := hw
        rw [hw2] at h3
        simpa [show st.now + (timeout - (st.now - startT)) = startT + timeout
          by ring] using h3
      match r with
      | none => exact hb
      | some msg =>
        simp only
        split
        · exact le_trans (ih _ st1) (by simp only [max_le_iff, le_max_iff] at *; omega)
        · split
          · exact le_trans (ih _ st1) (by simp only [max_le_iff, le_max_iff] at *; omega)
          · exact hb

theorem collectSteps_spec (pfx : String) (startT timeout : Int) :
    ∀ (need : Nat) (acc : CollectedMessages) (st : ServerState)
      (col : CollectedMessages) (st2 : ServerState),
      collectSteps pfx startT timeout need acc st = (some col, st2) →
      ∃ nw : List Message,
        nw.length = need ∧
        col.messages = acc.messages ++ nw ∧
        col.test_ids = acc.test_ids ++
          nw.map (fun m => if m.content = pfx then "" else splitId m.content) ∧
        (∀ m ∈ nw, m.content = pfx ∨ strStartsWith m.content (pfx ++ ":")) ∧
        streamOf st = nw ++ streamOf st2 := by
  intro need
  induction need with
  | zero =>
    intro acc st col st2 h
    simp only [collectSteps, Prod.mk.injEq, Option.some.injEq] at h
    obtain ⟨h1, h2⟩ := h
    subst h1
    subst h2
    exact ⟨[], by simp⟩
  | succ n ih =>
    intro acc st col st2 h
    rw [collectSteps] at h
    split at h
    · simp at h
    · rcases hw : wait_for_message_with_conn (timeout - (st.now - startT)) st
        with ⟨r, st1⟩
      rw [hw] at h
      have hstream1 : ∀ m, r = some m → streamOf st = m :: streamOf st1 := by
        intro m hm
        refine wait_for_message_fifo.2.2.1 (timeout - (st.now - startT)) st st1 m ?_
        rw [hw, hm]
      match r with
      | none => simp at h
      | some msg =>
        simp only at h
        split at h
        · rename_i hcontent
          obtain ⟨nw, hlen, hmsgs, hids, hmem, hstr⟩ := ih _ st1 col st2 h
          refine ⟨msg :: nw, by simp [hlen], by simp [hmsgs], ?_, ?_, ?_⟩
          · simp [hids, hcontent]
          · intro m hm
            rcases List.mem_cons.mp hm with hm | hm
            · exact Or.inl (hm ▸ hcontent)
            · exact hmem m hm
          · rw [hstream1 msg rfl, hstr]
            simp
        · split at h
          · rename_i hcontent htag
            obtain ⟨nw, hlen, hmsgs, hids, hmem, hstr⟩ := ih _ st1 col st2 h
            refine ⟨msg :: nw, by simp [hlen], by simp [hmsgs], ?_, ?_, ?_⟩
            · simp [hids, hcontent]
            · intro m hm
              rcases List.mem_cons.mp hm with hm | hm
              · exact Or.inr (hm ▸ htag)
              · exact hmem m hm
            · rw [hstream1 msg rfl, hstr]
              simp
          · simp at h

/-- C2: when `wait_for_started_messages` succeeds it returns exactly
`count` messages, collected in global arrival order (they form the head of
the delivery stream, the final state holding the rest), each accepted
frame either equal to the expected tag (recorded id is the empty string)
or starting with the tag plus a colon (recorded id is the text after the
first colon, index-aligned with the messages); the timeout is a budget for
the whole call, whose clock can never pass start time plus timeout; an
exhausted budget yields `None`; and a first frame matching neither shape
fails the whole call immediately with `None`. -/
theorem wait_for_started_spec :
    (∀ (pfx : String) (count : Nat) (timeout : Int) (st : ServerState)
        (col : CollectedMessages) (st2 : ServerState),
        wait_for_started_messages pfx count timeout st = (some col, st2) →
        col.messages.length = count ∧
        col.test_ids = col.messages.map
          (fun m => if m.content = pfx then "" else splitId m.content) ∧
        (∀ m ∈ col.messages,
          m.content = pfx ∨ strStartsWith m.content (pfx ++ ":")) ∧
        streamOf st = col.messages ++ streamOf st2) ∧
    (∀ (pfx : String) (count : Nat) (timeout : Int) (st : ServerState),
        (wait_for_started_messages pfx count timeout st).2.now ≤
          max st.now (st.now + timeout)) ∧
    (∀ (pfx : String) (n : Nat) (timeout : Int) (st : ServerState),
        timeout ≤ 0 →
        (wait_for_started_messages pfx (n + 1) timeout st).1 = none) ∧
    (∀ (pfx : String) (n : Nat) (timeout : Int) (st : ServerState)
        (m : Message) (q : List Message),
        st.queue = m :: q → 0 < timeout →
        ¬ m.content = pfx → ¬ strStartsWith m.content (pfx ++ ":") →
        wait_for_started_messages pfx (n + 1) timeout st =
          (none, ⟨st.now, q, st.arrivals⟩)) := by
  refine ⟨?_, ?_, ?_, ?_⟩
  · intro pfx count timeout st col st2 h
    obtain ⟨nw, hlen, hmsgs, hids, hmem, hstr⟩ :=
      collectSteps_spec pfx st.now timeout count ⟨[], []⟩ st col st2 h
    simp only [List.nil_append] at hmsgs hids
    subst hmsgs
    exact ⟨hlen, by simpa using hids, hmem, hstr⟩
  · intro pfx count timeout st
    have := collectSteps_now_le pfx st.now timeout count ⟨[], []⟩ st
    simpa [wait_for_started_messages] using this
  · intro pfx n timeout st ht
    rw [wait_for_started_messages, collectSteps]
    rw [if_pos (by omega)]
  · intro pfx n timeout st m q hq ht h1 h2
    obtain ⟨now, queue, arr⟩ := st
    cases hq
    rw [wait_for_started_messages, collectSteps]
    simp only
    rw [if_neg (by omega)]
    have hpop : wait_for_message_with_conn (timeout - (now - now))
        ⟨now, m :: q, arr⟩ = (some m, ⟨now, q, arr⟩) := by
      simp [wait_for_message_with_conn, waitLoop]
    rw [hpop]
    simp only
    rw [if_neg h1, if_neg (by simpa using h2)]

/-- Witness for C2 at a concrete run: two frames, one bare and one
correlated, collected from the queue. -/
theorem wait_for_started_spec_witness :
    wait_for_started_messages "STARTED" 2 10
        ⟨0, [⟨"STARTED", 0⟩, ⟨"STARTED:t1", 1⟩], []⟩ =
      (some ⟨[⟨"STARTED", 0⟩, ⟨"STARTED:t1", 1⟩], ["", "t1"]⟩, ⟨0, [], []⟩) ∧
    ([⟨"STARTED", 0⟩, ⟨"STARTED:t1", 1⟩] : List Message).length = 2 ∧
    (wait_for_started_messages "STARTED" 1 0 ⟨0, [⟨"STARTED", 0⟩], []⟩).1 =
      none ∧
    wait_for_started_messages "STARTED" 1 10 ⟨0, [⟨"BAD", 2⟩], []⟩ =
      (none, ⟨0, [], []⟩) := by
  have hrun : wait_for_started_messages "STARTED" 2 10
      ⟨0, [⟨"STARTED", 0⟩, ⟨"STARTED:t1", 1⟩], []⟩ =
      (some ⟨[⟨"STARTED", 0⟩, ⟨"STARTED:t1", 1⟩], ["", "t1"]⟩, ⟨0, [], []⟩) := by
    decide
  refine ⟨hrun, ?_, ?_, ?_⟩
  · exact (wait_for_started_spec.1 "STARTED" 2 10
      ⟨0, [⟨"STARTED", 0⟩, ⟨"STARTED:t1", 1⟩], []⟩
      ⟨[⟨"STARTED", 0⟩, ⟨"STARTED:t1", 1⟩], ["", "t1"]⟩ ⟨0, [], []⟩ hrun).1
  · exact wait_for_started_spec.2.2.1 "STARTED" 0 0 ⟨0, [⟨"STARTED", 0⟩], []⟩
      (by decide)
  · exact wait_for_started_spec.2.2.2 "STARTED" 0 10 ⟨0, [⟨"BAD", 2⟩], []⟩
      ⟨"BAD", 2⟩ [] rfl (by decide) (by decide) (by decide)

theorem splitId_tag (s : String) : splitId ("STARTED:" ++ s) = s := by
  obtain ⟨l⟩ := s
  rfl

theorem strStartsWith_tag (tg s : String) : strStartsWith (tg ++ s) tg := by
  obtain ⟨a⟩ := tg
  obtain ⟨b⟩ := s
  simp [strStartsWith, List.isPrefixOf_iff_prefix]

/-- C8: a frame tagged `STARTED:` is collected toward the count even when
the id after the colon differs from the requested one, with the id it
actually carried recorded (for a tagged frame the recorded id is exactly
the text after the colon); and any frame that does not start with
`STARTED:` makes the call fail immediately with `None` — so the grouping
wait does not strictly isolate the requested group. -/
theorem wait_for_test_group_permissive :
    (∀ (id : String) (timeout : Int) (st : ServerState) (m : Message)
        (q : List Message),
        st.queue = m :: q → 0 < timeout →
        strStartsWith m.content "STARTED:" →
        wait_for_test_group id 1 timeout st =
          (some ⟨[m], [splitId m.content]⟩, ⟨st.now, q, st.arrivals⟩)) ∧
    (∀ other : String, splitId ("STARTED:" ++ other) = other) ∧
    (∀ (id : String) (n : Nat) (timeout : Int) (st : ServerState) (m : Message)
        (q : List Message),
        st.queue = m :: q → 0 < timeout →
        ¬ strStartsWith m.content "STARTED:" →
        wait_for_test_group id (n + 1) timeout st =
          (none, ⟨st.now, q, st.arrivals⟩)) := by
  refine ⟨?_, splitId_tag, ?_⟩
  · intro id timeout st m q hq ht hsw
    obtain ⟨now, queue, arr⟩ := st
    cases hq
    rw [wait_for_test_group, groupSteps]
    simp only
    rw [if_neg (by omega)]
    have hpop : wait_for_message_with_conn (timeout - (now - now))
        ⟨now, m :: q, arr⟩ = (some m, ⟨now, q, arr⟩) := by
      simp [wait_for_message_with_conn, waitLoop]
    rw [hpop]
    simp only
    by_cases hc : m.content = "STARTED:" ++ id
    · rw [if_pos hc, groupSteps]
      have hid : splitId m.content = id := by rw [hc, splitId_tag]
      simp [hid]
    · rw [if_neg hc, if_pos hsw, groupSteps]
      simp
  · intro id n timeout st m q hq ht hsw
    obtain ⟨now, queue, arr⟩ := st
    cases hq
    rw [wait_for_test_group, groupSteps]
    simp only
    rw [if_neg (by omega)]
    have hpop : wait_for_message_with_conn (timeout - (now - now))
        ⟨now, m :: q, arr⟩ = (some m, ⟨now, q, arr⟩) := by
      simp [wait_for_message_with_conn, waitLoop]
    rw [hpop]
    simp only
    have hne : ¬ m.content = "STARTED:" ++ id := by
      intro hcc
      exact hsw (by rw [hcc]; exact strStartsWith_tag "STARTED:" id)
    rw [if_neg hne, if_neg (by simpa using hsw)]

/-- Witness for C8: a frame for test t2 is accepted by a wait for test t1,
and a non-STARTED frame aborts the wait. -/
theorem wait_for_test_group_permissive_witness :
    wait_for_test_group "t1" 1 10 ⟨0, [⟨"STARTED:t2", 4⟩], []⟩ =
      (some ⟨[⟨"STARTED:t2", 4⟩], ["t2"]⟩, ⟨0, [], []⟩) ∧
    splitId ("STARTED:" ++ "t2") = "t2" ∧
    wait_for_test_group "t1" 1 10 ⟨0, [⟨"DONE", 5⟩], []⟩ =
      (none, ⟨0, [], []⟩) := by
  refine ⟨?_, wait_for_test_group_permissive.2.1 "t2", ?_⟩
  · have h := wait_for_test_group_permissive.1 "t1" 10
      ⟨0, [⟨"STARTED:t2", 4⟩], []⟩ ⟨"STARTED:t2", 4⟩ [] rfl (by decide) (by decide)
    rw [h]
    rfl
  · exact wait_for_test_group_permissive.2.2 "t1" 0 10 ⟨0, [⟨"DONE", 5⟩], []⟩
      ⟨"DONE", 5⟩ [] rfl (by decide) (by decide)

/-- C4: stop is idempotent — stopping an empty managed set emits no event
at all and touches nothing, and a second stop right after a first one
always finds the set cleared, emitting no event and signalling no process
a second time. -/
theorem stop_idempotent :
    (∀ env : Env, stopModel env [] = ([], ⟨[]⟩)) ∧
    (∀ (env : Env) (ps : List (ServiceConfig × ProcHandle)),
        stopModel env (stopModel env ps).2.processes = ([], ⟨[]⟩)) := by
  constructor
  · intro env
    rfl
  · intro env ps
    match ps with
    | [] => rfl
    | _ :: _ => rfl

/-- Every managed process is reaped by `stop()`, with its exit code
recorded in the reap event. -/
theorem stopModel_reaps (env : Env) (ps : List (ServiceConfig × ProcHandle))
    (p : ServiceConfig × ProcHandle) (hp : p ∈ ps) :
    Ev.reap p.2.pid (reapedCode env p.2) ∈ (stopModel env ps).1 := by
  match ps with
  | [] => cases hp
  | q :: rest =>
    simp only [stopModel, List.mem_append, List.mem_cons, List.mem_map]
    aesop

theorem pairwise_phase_const (l : List Ev) (k : Nat)
    (h : ∀ a ∈ l, evPhase a = k) :
    l.Pairwise (fun a b => evPhase a ≤ evPhase b) :=
  List.pairwise_of_forall_mem_list (fun a ha b hb => by rw [h a ha, h b hb])

theorem stopModel_phase_sorted (env : Env)
    (ps : List (ServiceConfig × ProcHandle)) :
    (stopModel env ps).1.Pairwise (fun a b => evPhase a ≤ evPhase b) := by
  match ps with
  | [] => simp [stopModel]
  | q :: rest =>
    rw [stopModel]
    simp only
    have hsig : ∀ a ∈ ((q :: rest).filter (fun p => p.2.status.isNone)).map
        (fun p => Ev.sigterm p.2.pid), evPhase a = 2 := by
      intro a ha
      rw [List.mem_map] at ha
      obtain ⟨x, _, hx⟩ := ha
      subst hx
      rfl
    have hkill : ∀ a ∈ ((q :: rest).filter
        (fun p => (afterGraceStatus env p.2).isNone)).map
        (fun p => Ev.kill p.2.pid), evPhase a = 4 := by
      intro a ha
      rw [List.mem_map] at ha
      obtain ⟨x, _, hx⟩ := ha
      subst hx
      rfl
    have hreap : ∀ a ∈ (q :: rest).map
        (fun p => Ev.reap p.2.pid (reapedCode env p.2)), evPhase a = 5 := by
      intro a ha
      rw [List.mem_map] at ha
      obtain ⟨x, _, hx⟩ := ha
      subst hx
      rfl
    rw [List.pairwise_append]
    refine ⟨?_, pairwise_phase_const _ 5 hreap, ?_⟩
    · rw [List.pairwise_append]
      refine ⟨pairwise_phase_const _ 2 hsig, ?_, ?_⟩
      · rw [List.pairwise_cons]
        refine ⟨?_, pairwise_phase_const _ 4 hkill⟩
        intro b hb
        rw [show evPhase Ev.graceWait = 3 from rfl, hkill b hb]
        omega
      · intro a ha b hb
        rw [List.mem_cons] at hb
        rw [hsig a ha]
        rcases hb with hb | hb
        · subst hb
          simp [evPhase]
        · rw [hkill b hb]
          omega
    · intro a ha b hb
      rw [hreap b hb]
      rw [List.mem_append] at ha
      rcases ha with ha | ha
      · rw [hsig a ha]
        omega
      · rw [List.mem_cons] at ha
        rcases ha with ha | ha
        · subst ha
          simp [evPhase]
        · rw [hkill a ha]
          omega

/-- C5: the stop trace is ordered by phase — every SIGTERM precedes the
grace-period wait, which precedes every kill, which precedes every reap;
the grace wait is always granted before any kill; SIGTERM goes exactly to
the processes still running at entry; a process is killed exactly when it
is still running after the grace period (so a process that honours SIGTERM
is never killed), and every killed process had received the signal; every
managed process is reaped with its exit code recorded; and the managed set
is cleared afterwards. -/
theorem stop_grace_before_kill (env : Env)
    (ps : List (ServiceConfig × ProcHandle)) (hne : ps ≠ []) :
    (stopModel env ps).1.Pairwise (fun a b => evPhase a ≤ evPhase b) ∧
    Ev.graceWait ∈ (stopModel env ps).1 ∧
    (∀ pid, Ev.sigterm pid ∈ (stopModel env ps).1 ↔
      ∃ p ∈ ps, p.2.pid = pid ∧ p.2.status = none) ∧
    (∀ pid, Ev.kill pid ∈ (stopModel env ps).1 ↔
      ∃ p ∈ ps, p.2.pid = pid ∧ afterGraceStatus env p.2 = none) ∧
    (∀ pid, Ev.kill pid ∈ (stopModel env ps).1 →
      Ev.sigterm pid ∈ (stopModel env ps).1) ∧
    (∀ p ∈ ps, Ev.reap p.2.pid (reapedCode env p.2) ∈ (stopModel env ps).1) ∧
    (stopModel env ps).2.processes = [] := by
  match ps with
  | [] => exact absurd rfl hne
  | q :: rest =>
    have hsig : ∀ pid, Ev.sigterm pid ∈ (stopModel env (q :: rest)).1 ↔
        ∃ p ∈ q :: rest, p.2.pid = pid ∧ p.2.status = none := by
      intro pid
      simp only [stopModel, List.mem_append, List.mem_cons, List.mem_map,
        List.mem_filter, Option.isNone_iff_eq_none]
      constructor
      · intro h
        aesop
      · intro h
        aesop
    have hkill : ∀ pid, Ev.kill pid ∈ (stopModel env (q :: rest)).1 ↔
        ∃ p ∈ q :: rest, p.2.pid = pid ∧ afterGraceStatus env p.2 = none := by
      intro pid
      simp only [stopModel, List.mem_append, List.mem_cons, List.mem_map,
        List.mem_filter, Option.isNone_iff_eq_none]
      constructor
      · intro h
        aesop
      · intro h
        aesop
    refine ⟨stopModel_phase_sorted env (q :: rest), ?_, hsig, hkill, ?_,
      stopModel_reaps env (q :: rest), ?_⟩
    · simp [stopModel]
    · intro pid hk
      obtain ⟨p, hp, hpid, hag⟩ := (hkill pid).mp hk
      refine (hsig pid).mpr ⟨p, hp, hpid, ?_⟩
      cases hps : p.2.status with
      | none => rfl
      | some c =>
        rw [afterGraceStatus, hps] at hag
        simp at hag
    · rfl

/-- Witness for C5 at a concrete topology: one process that honours
SIGTERM and one that must be killed. -/
theorem stop_grace_before_kill_witness :
    (stopModel
        ⟨fun _ => none, fun _ _ => none,
          fun pid => if pid = 1 then some 0 else none⟩
        [(⟨"w", "cw", "bw"⟩, ⟨1, none⟩), (⟨"r", "cr", "br"⟩, ⟨2, none⟩)]).1.Pairwise
      (fun a b => evPhase a ≤ evPhase b) ∧
    (stopModel
        ⟨fun _ => none, fun _ _ => none,
          fun pid => if pid = 1 then some 0 else none⟩
        [(⟨"w", "cw", "bw"⟩, ⟨1, none⟩), (⟨"r", "cr", "br"⟩, ⟨2, none⟩)]).2.processes
      = [] :=
  ⟨(stop_grace_before_kill
      ⟨fun _ => none, fun _ _ => none,
        fun pid => if pid = 1 then some 0 else none⟩
      [(⟨"w", "cw", "bw"⟩, ⟨1, none⟩), (⟨"r", "cr", "br"⟩, ⟨2, none⟩)]
      (by simp)).1,
   (stop_grace_before_kill
      ⟨fun _ => none, fun _ _ => none,
        fun pid => if pid = 1 then some 0 else none⟩
      [(⟨"w", "cw", "bw"⟩, ⟨1, none⟩), (⟨"r", "cr", "br"⟩, ⟨2, none⟩)]
      (by simp)).2.2.2.2.2.2⟩

/-- C10: `is_running()` is a universally quantified poll over the managed
set, so it returns `true` on the empty set — before the first start and
right after any stop — and returns `false` only when some managed process
has actually exited. -/
theorem is_running_vacuous :
    (∀ st : ManagerState, st.processes = [] → is_running st = true) ∧
    (∀ (env : Env) (ps : List (ServiceConfig × ProcHandle)),
        is_running (stopModel env ps).2 = true) ∧
    (∀ st : ManagerState, is_running st = false →
        ∃ p ∈ st.processes, p.2.status ≠ none) := by
  refine ⟨?_, ?_, ?_⟩
  · intro st h
    rw [is_running, h]
    rfl
  · intro env ps
    match ps with
    | [] => rfl
    | _ :: _ => rfl
  · intro st h
    rw [is_running] at h
    rw [List.all_eq_false] at h
    obtain ⟨p, hp, hs⟩ := h
    refine ⟨p, hp, ?_⟩
    simp only [Bool.not_eq_true, Option.isNone_eq_false_iff,
      Option.isSome_iff_ne_none] at hs
    exact hs

/-- Witness for C10: empty set runs vacuously; an exited process makes it
false. -/
theorem is_running_vacuous_witness :
    is_running ⟨[]⟩ = true ∧
    is_running (stopModel ⟨fun _ => none, fun _ _ => none, fun _ => none⟩
      [(⟨"w", "c", "b"⟩, ⟨3, none⟩)]).2 = true ∧
    (∃ p ∈ ({ processes := [(⟨"w", "c", "b"⟩, ⟨3, some 1⟩)] } : ManagerState).processes,
      p.2.status ≠ none) :=
  ⟨is_running_vacuous.1 ⟨[]⟩ rfl,
   is_running_vacuous.2.1 ⟨fun _ => none, fun _ _ => none, fun _ => none⟩
     [(⟨"w", "c", "b"⟩, ⟨3, none⟩)],
   is_running_vacuous.2.2 ⟨[(⟨"w", "c", "b"⟩, ⟨3, some 1⟩)]⟩ (by decide)⟩

theorem stopModel_clears (env : Env) (ps : List (ServiceConfig × ProcHandle)) :
    (stopModel env ps).2 = ⟨[]⟩ := by
  match ps with
  | [] => rfl
  | _ :: _ => rfl

theorem spawned_not_mem_stop (env : Env) (ps : List (ServiceConfig × ProcHandle))
    (nm : String) (pid : Nat) : Ev.spawned nm pid ∉ (stopModel env ps).1 := by
  match ps with
  | [] => simp [stopModel]
  | q :: rest =>
    simp only [stopModel, List.mem_append, List.mem_cons, List.mem_map]
    aesop

theorem mkdirs_not_mem_stop (env : Env) (ps : List (ServiceConfig × ProcHandle)) :
    Ev.mkdirs ∉ (stopModel env ps).1 := by
  match ps with
  | [] => simp [stopModel]
  | q :: rest =>
    simp only [stopModel, List.mem_append, List.mem_cons, List.mem_map]
    aesop

theorem startLoop_true_iff (env : Env) :
    ∀ (svcs : List ServiceConfig) (acc : List (ServiceConfig × ProcHandle)),
      (startLoop env svcs acc).2.1 = true ↔
        ∀ s ∈ svcs, (startService env s).isSome := by
  intro svcs
  induction svcs with
  | nil =>
    intro acc
    simp [startLoop]
  | cons s rest ih =>
    intro acc
    rcases hs : startService env s with _ | h
    · rcases hstop : stopModel env acc with ⟨tr, stp⟩
      simp only [startLoop, hs, hstop]
      constructor
      · intro h
        cases h
      · intro h
        have h1 := h s (by simp)
        rw [hs] at h1
        cases h1
    · rcases hrec : startLoop env rest (acc ++ [(s, h)]) with ⟨tr, b, st1⟩
      simp only [startLoop, hs, hrec]
      have := ih (acc ++ [(s, h)])
      rw [hrec] at this
      simp only at this
      rw [this]
      constructor
      · intro hall s2 hs2
        rcases List.mem_cons.mp hs2 with hs2 | hs2
        · subst hs2
          rw [hs]
          rfl
        · exact hall s2 hs2
      · intro hall s2 hs2
        exact hall s2 (List.mem_cons_of_mem s hs2)

theorem startLoop_false_clears (env : Env) :
    ∀ (svcs : List ServiceConfig) (acc : List (ServiceConfig × ProcHandle)),
      (startLoop env svcs acc).2.1 = false →
        (startLoop env svcs acc).2.2.processes = [] := by
  intro svcs
  induction svcs with
  | nil =>
    intro acc h
    cases h
  | cons s rest ih =>
    intro acc
    rcases hs : startService env s with _ | h
    · intro _
      have hclear := stopModel_clears env acc
      rcases hstop : stopModel env acc with ⟨tr, stp⟩
      rw [hstop] at hclear
      simp only [startLoop, hs, hstop]
      simp only at hclear
      rw [hclear]
    · rcases hrec : startLoop env rest (acc ++ [(s, h)]) with ⟨tr, b, st1⟩
      simp only [startLoop, hs, hrec]
      intro hb
      have := ih (acc ++ [(s, h)])
      rw [hrec] at this
      exact this hb

theorem startLoop_rollback (env : Env) :
    ∀ (svcs : List ServiceConfig) (acc : List (ServiceConfig × ProcHandle)),
      (startLoop env svcs acc).2.1 = false →
      (∀ p ∈ acc, ∃ c, Ev.reap p.2.pid c ∈ (startLoop env svcs acc).1) ∧
      (∀ nm pid, Ev.spawned nm pid ∈ (startLoop env svcs acc).1 →
        ∃ c, Ev.reap pid c ∈ (startLoop env svcs acc).1) := by
  intro svcs
  induction svcs with
  | nil =>
    intro acc h
    cases h
  | cons s rest ih =>
    intro acc
    rcases hs : startService env s with _ | h
    · intro _
      have htr : (startLoop env (s :: rest) acc).1 = (stopModel env acc).1 := by
        rcases hstop : stopModel env acc with ⟨tr, stp⟩
        simp [startLoop, hs, hstop]
      rw [htr]
      constructor
      · intro p hp
        exact ⟨reapedCode env p.2, stopModel_reaps env acc p hp⟩
      · intro nm pid hmem
        exact absurd hmem (spawned_not_mem_stop env acc nm pid)
    · rcases hrec : startLoop env rest (acc ++ [(s, h)]) with ⟨tr, b, st1⟩
      have htr : (startLoop env (s :: rest) acc).1 = Ev.spawned s.name h.pid :: tr := by
        simp [startLoop, hs, hrec]
      have hb : (startLoop env (s :: rest) acc).2.1 = b := by
        simp [startLoop, hs, hrec]
      rw [htr, hb]
      intro hbf
      have hih := ih (acc ++ [(s, h)])
      rw [hrec] at hih
      simp only at hih
      obtain ⟨ih1, ih2⟩ := hih hbf
      constructor
      · intro p hp
        obtain ⟨c, hc⟩ := ih1 p (List.mem_append_left _ hp)
        exact ⟨c, List.mem_cons_of_mem _ hc⟩
      · intro nm pid hmem
        rcases List.mem_cons.mp hmem with hmem | hmem
        · obtain ⟨hnm, hpid⟩ := Ev.spawned.inj hmem
          obtain ⟨c, hc⟩ := ih1 (s, h) (List.mem_append_right _ (by simp))
          exact ⟨c, List.mem_cons_of_mem _ (by simpa [hpid] using hc)⟩
        · obtain ⟨c, hc⟩ := ih2 nm pid hmem
          exact ⟨c, List.mem_cons_of_mem _ hc⟩

theorem mkdirs_not_mem_startLoop (env : Env) :
    ∀ (svcs : List ServiceConfig) (acc : List (ServiceConfig × ProcHandle)),
      Ev.mkdirs ∉ (startLoop env svcs acc).1 := by
  intro svcs
  induction svcs with
  | nil =>
    intro acc
    simp [startLoop]
  | cons s rest ih =>
    intro acc
    rcases hs : startService env s with _ | h
    · have htr : (startLoop env (s :: rest) acc).1 = (stopModel env acc).1 := by
        rcases hstop : stopModel env acc with ⟨tr, stp⟩
        simp [startLoop, hs, hstop]
      rw [htr]
      exact mkdirs_not_mem_stop env acc
    · rcases hrec : startLoop env rest (acc ++ [(s, h)]) with ⟨tr, b, st1⟩
      have htr : (startLoop env (s :: rest) acc).1 = Ev.spawned s.name h.pid :: tr := by
        simp [startLoop, hs, hrec]
      rw [htr]
      intro hmem
      rcases List.mem_cons.mp hmem with hmem | hmem
      · cases hmem
      · have := ih (acc ++ [(s, h)])
        rw [hrec] at this
        exact this hmem

theorem startService_isSome_iff (env : Env) (s : ServiceConfig) :
    (startService env s).isSome ↔
      ∃ b c, env.resolve s.binary = some b ∧ env.resolve s.config = some c ∧
        (env.spawn b c).isSome := by
  rw [startService]
  rcases h1 : env.resolve s.binary with _ | b
  · simp
  · rcases h2 : env.resolve s.config with _ | c
    · simp
    · rcases h3 : env.spawn b c with _ | pid
      · simp [h3]
      · simp [h3]

/-- C3: `start()` reports success exactly when, for every descriptor, the
binary path resolves, the config path resolves, and the spawn succeeds;
and on the first failure it rolls everything back — the managed set ends
empty and every process spawned during the call has a matching reap event
(the `stop()` invoked on the already-started members), so a failed start
leaves zero managed processes. -/
theorem start_all_or_nothing (env : Env) (services : List ServiceConfig)
    (st : ManagerState) :
    ((startModel env services st).2.1 = true ↔
      ∀ s ∈ services, (startService env s).isSome) ∧
    (∀ s : ServiceConfig, (startService env s).isSome ↔
      ∃ b c, env.resolve s.binary = some b ∧ env.resolve s.config = some c ∧
        (env.spawn b c).isSome) ∧
    ((startModel env services st).2.1 = false →
      (startModel env services st).2.2.processes = []) ∧
    ((startModel env services st).2.1 = false →
      ∀ nm pid, Ev.spawned nm pid ∈ (startModel env services st).1 →
        ∃ c, Ev.reap pid c ∈ (startModel env services st).1) := by
  refine ⟨startLoop_true_iff env services st.processes,
    startService_isSome_iff env, ?_, ?_⟩
  · intro h
    exact startLoop_false_clears env services st.processes h
  · intro h nm pid hmem
    have hr := startLoop_rollback env services st.processes h
    rw [startModel, List.mem_cons] at hmem
    rcases hmem with hmem | hmem
    · cases hmem
    · obtain ⟨c, hc⟩ := hr.2 nm pid hmem
      exact ⟨c, by rw [startModel]; exact List.mem_cons_of_mem _ hc⟩

/-- Witness for C3: a resolution failure yields a failed start with an
empty managed set, and an environment where everything resolves and
spawns yields success. -/
theorem start_all_or_nothing_witness :
    (startModel ⟨fun _ => none, fun _ _ => none, fun _ => none⟩
        [⟨"storage", "cfg", "bin"⟩] ⟨[]⟩).2.2.processes = [] ∧
    (startModel ⟨fun p => some p, fun _ _ => some 7, fun _ => some 0⟩
        [⟨"storage", "cfg", "bin"⟩] ⟨[]⟩).2.1 = true :=
  ⟨(start_all_or_nothing ⟨fun _ => none, fun _ _ => none, fun _ => none⟩
      [⟨"storage", "cfg", "bin"⟩] ⟨[]⟩).2.2.1 rfl,
   (start_all_or_nothing ⟨fun p => some p, fun _ _ => some 7, fun _ => some 0⟩
      [⟨"storage", "cfg", "bin"⟩] ⟨[]⟩).1.mpr
     (by
       intro s hs
       rw [List.mem_singleton] at hs
       subst hs
       rfl)⟩

/-- C6: `restart()` is `stop()` followed by the same start sequence as
`start()` on the same descriptor list, with the directory-creation step
skipped: it produces the same success flag and the same managed set as
running `stop()` and then `start()`, its trace is the stop trace followed
by the start trace minus the leading directory-creation event, and no
directory-creation event ever appears in a restart trace. -/
theorem restart_is_stop_then_start (env : Env) (services : List ServiceConfig)
    (st : ManagerState) :
    (restartModel env services st).2 =
      (startModel env services (stopModel env st.processes).2).2 ∧
    (startModel env services (stopModel env st.processes).2).1 =
      Ev.mkdirs ::
        (startLoop env services (stopModel env st.processes).2.processes).1 ∧
    (restartModel env services st).1 =
      (stopModel env st.processes).1 ++
        (startLoop env services (stopModel env st.processes).2.processes).1 ∧
    Ev.mkdirs ∉ (restartModel env services st).1 := by
  refine ⟨rfl, rfl, rfl, ?_⟩
  intro hmem
  rw [restartModel] at hmem
  simp only [List.mem_append] at hmem
  rcases hmem with h | h
  · exact mkdirs_not_mem_stop env st.processes h
  · exact mkdirs_not_mem_startLoop env services _ h

/-- Witness for C6 at a concrete topology: one managed process, one
descriptor to restart. -/
theorem restart_is_stop_then_start_witness :
    (restartModel ⟨fun p => some p, fun _ _ => some 8, fun _ => some 0⟩
        [⟨"storage", "cfg", "bin"⟩] ⟨[(⟨"storage", "cfg", "bin"⟩, ⟨5, none⟩)]⟩).2 =
      (startModel ⟨fun p => some p, fun _ _ => some 8, fun _ => some 0⟩
        [⟨"storage", "cfg", "bin"⟩]
        (stopModel ⟨fun p => some p, fun _ _ => some 8, fun _ => some 0⟩
          [(⟨"storage", "cfg", "bin"⟩, ⟨5, none⟩)]).2).2 ∧
    Ev.mkdirs ∉ (restartModel ⟨fun p => some p, fun _ _ => some 8, fun _ => some 0⟩
        [⟨"storage", "cfg", "bin"⟩] ⟨[(⟨"storage", "cfg", "bin"⟩, ⟨5, none⟩)]⟩).1 :=
  ⟨(restart_is_stop_then_start ⟨fun p => some p, fun _ _ => some 8, fun _ => some 0⟩
      [⟨"storage", "cfg", "bin"⟩] ⟨[(⟨"storage", "cfg", "bin"⟩, ⟨5, none⟩)]⟩).1,
   (restart_is_stop_then_start ⟨fun p => some p, fun _ _ => some 8, fun _ => some 0⟩
      [⟨"storage", "cfg", "bin"⟩] ⟨[(⟨"storage", "cfg", "bin"⟩, ⟨5, none⟩)]⟩).2.2.2⟩

end BB
